import Mathlib

/-!
Verification of the path-optimization core of the pysisyphus repository
against its natural-language specification.

The development shallowly embeds the Python source:

* `pysisyphus/optimizers/StringOptimizer.py` — step generation, component
  clipping, and the fully-grown stopping countdown;
* `pysisyphus/intcoords/Primitive.py` — the parallelism test and the
  proximity weight `rho`;
* `cos/SimpleZTS.py` — spline reparametrization of a chain of states;
* `pysisyphus/calculators/Calculator.py` — the crash-handling path of
  `Calculator.run`.

Real-valued NumPy arrays are modelled as `List ℝ`; `np.linalg.norm` is
`Real.sqrt` of the sum of squares.  Methods reading instance state
(`self.coords`, `self.forces`, `self.steps`, `self.cur_cycle`) become pure
functions taking that state as arguments.
-/

namespace Pysis

noncomputable section

/-- Sum of squares of a vector; `np.linalg.norm(v)**2` equals this exactly. -/
def sumsq (v : List ℝ) : ℝ := (v.map (fun x => x ^ 2)).sum

/-- Euclidean norm of a flat vector, as computed by `np.linalg.norm`. -/
def npNorm (v : List ℝ) : ℝ := Real.sqrt (sumsq v)

/-- Dot product `np.dot` on flat vectors of equal length. -/
def npDot (u v : List ℝ) : ℝ := (List.zipWith (· * ·) u v).sum

/-- Sign function `np.sign` on a scalar. -/
def npSign (x : ℝ) : ℝ := if 0 < x then 1 else if x < 0 then -1 else 0

end

namespace StringOptimizer

noncomputable section

/-- Method `StringOptimizer.restrict_step_components`: every component whose
absolute value exceeds `max_step` is replaced by `sign * max_step`
(`steps[too_big] = signs * self.max_step`); the rest are untouched. -/
def restrict_step_components (maxStep : ℝ) (steps : List ℝ) : List ℝ :=
  steps.map (fun x => if maxStep < |x| then npSign x * maxStep else x)

/-- Flag `string_size_changed` in `StringOptimizer.optimize`: `self.coords[-2]`
raises `IndexError` (→ `true`) when no previous-cycle coordinates exist;
otherwise it compares the sizes. -/
def stringSizeChanged (curSize : ℕ) (prevSize? : Option ℕ) : Bool :=
  match prevSize? with
  | none => true
  | some s => curSize != s

/-- Steepest-descent step `sd_step = forces / self.gamma`. -/
def sdStep (gamma : ℝ) (forces : List ℝ) : List ℝ :=
  forces.map (fun f => f / gamma)

/-- Ratio `quot = min(cur_norm**2 / prev_norm**2, 1)` in the conjugate-gradient
branch of `StringOptimizer.optimize`. -/
def cgQuot (forces prevForces : List ℝ) : ℝ :=
  min (npNorm forces ^ 2 / npNorm prevForces ^ 2) 1

/-- The step emitted by `StringOptimizer.optimize` before clipping:
steepest descent on cycle 0 or when the string size changed, otherwise
`sd_step + quot * self.steps[-1]`. -/
def optimizeStep (gamma : ℝ) (curCycle : ℕ) (curSize : ℕ)
    (prevSize? : Option ℕ) (forces prevForces prevStep : List ℝ) : List ℝ :=
  if curCycle = 0 ∨ stringSizeChanged curSize prevSize? then
    sdStep gamma forces
  else
    List.zipWith (fun s p => s + cgQuot forces prevForces * p)
      (sdStep gamma forces) prevStep

/-- Method `StringOptimizer.optimize`: returns the pre-clipping step passed through
`restrict_step_components`. -/
def optimize (gamma maxStep : ℝ) (curCycle : ℕ) (curSize : ℕ)
    (prevSize? : Option ℕ) (forces prevForces prevStep : List ℝ) : List ℝ :=
  restrict_step_components maxStep
    (optimizeStep gamma curCycle curSize prevSize? forces prevForces prevStep)

/-- The scalar clamp applied to one component by
`restrict_step_components`. -/
def clampComp (maxStep x : ℝ) : ℝ :=
  if maxStep < |x| then npSign x * maxStep else x

end

/-- Constructor rule of `StringOptimizer.__init__`: `self.stop_in = self.stop_in_when_full + 1`
(the constructor coerces `stop_in_when_full` to `int`). -/
def initStopIn (stopInWhenFull : ℤ) : ℤ := stopInWhenFull + 1

/-- One call of `StringOptimizer.check_convergence`, given the generic
verdict of `super().check_convergence()` and `self.geometry.fully_grown`.
Returns the updated `self.stop_in`, the `full_stop` flag and the combined
verdict `full_stop or converged`. -/
def checkConvergence (fullyGrown converged : Bool) (stopIn : ℤ) :
    ℤ × Bool × Bool :=
  let stopIn' := if fullyGrown then stopIn - 1 else stopIn
  let fullStop := fullyGrown && decide (stopIn' = 0)
  (stopIn', fullStop, fullStop || converged)

/-- The `self.stop_in` counter after cycles `0 … k` of repeated
`check_convergence` calls, for given per-cycle `fully_grown` and generic
convergence signals, starting from `initStopIn stopInWhenFull`. -/
def stopInAfter (stopInWhenFull : ℤ) (fg : ℕ → Bool) : ℕ → ℤ
  | 0 => (checkConvergence (fg 0) false (initStopIn stopInWhenFull)).1
  | k + 1 => (checkConvergence (fg (k + 1)) false
      (stopInAfter stopInWhenFull fg k)).1

/-- The `full_stop` flag produced in cycle `k`. -/
def fullStopAt (stopInWhenFull : ℤ) (fg : ℕ → Bool) (k : ℕ) : Bool :=
  match k with
  | 0 => (checkConvergence (fg 0) false (initStopIn stopInWhenFull)).2.1
  | k + 1 => (checkConvergence (fg (k + 1)) false
      (stopInAfter stopInWhenFull fg k)).2.1

/-- The combined verdict returned by `check_convergence` in cycle `k`,
given the generic verdict `conv k` of that cycle. -/
def verdictAt (stopInWhenFull : ℤ) (fg conv : ℕ → Bool) (k : ℕ) : Bool :=
  match k with
  | 0 => (checkConvergence (fg 0) (conv 0) (initStopIn stopInWhenFull)).2.2
  | k + 1 => (checkConvergence (fg (k + 1)) (conv (k + 1))
      (stopInAfter stopInWhenFull fg k)).2.2

end StringOptimizer

namespace Primitive

noncomputable section

/-- Predicate `Primitive.parallel`: `dot = u.dot(v) / (norm(u) * norm(v))`,
`return (1 - abs(dot)) < thresh`, default threshold `1e-6`. -/
def parallel (u v : List ℝ) (thresh : ℝ := 1/1000000) : Prop :=
  1 - |npDot u v / (npNorm u * npNorm v)| < thresh

/-- Euclidean distance `np.linalg.norm(coords3d[i] - coords3d[j])` of two 3-vector rows. -/
def dist3 (p q : ℝ × ℝ × ℝ) : ℝ :=
  Real.sqrt ((p.1 - q.1) ^ 2 + (p.2.1 - q.2.1) ^ 2 + (p.2.2 - q.2.2) ^ 2)

/-- Weight `Primitive.rho`.  Modelled from the spec: the covalent-radius table
`COVALENT_RADII` lives in `pysisyphus.elem_data`, which is not among the
sources; it is taken here as an abstract table `CR` keyed (as in
`CR[atoms[i].lower()]`) by lower-case element symbols. -/
def rho (CR : String → ℝ) (atoms : ℕ → String)
    (coords3d : ℕ → ℝ × ℝ × ℝ) (indices : ℕ × ℕ) : ℝ :=
  let i := indices.1
  let j := indices.2
  let distance := dist3 (coords3d i) (coords3d j)
  let cov_rad_sum := CR (atoms i).toLower + CR (atoms j).toLower
  Real.exp (-(distance / cov_rad_sum - 1))

/-- The body of `rho` as a function of the distance and of the
covalent-radius sum. -/
def rhoOfDist (covRadSum distance : ℝ) : ℝ :=
  Real.exp (-(distance / covRadSum - 1))

end

end Primitive

namespace SimpleZTS

/-- Python errors that `SimpleZTS.reparametrize` can raise: with a `param`
other than `"energy"`/`"equal"` neither branch assigns `tck`, so the
final `splev(uniform_mesh, tck)` raises `UnboundLocalError`. -/
inductive PyErr
  | unboundLocal
  deriving DecidableEq

/-- State stored by `SimpleZTS.__init__`: `self.param = param` (default
`"equal"`) without any validation and delegates to
`ChainOfStates.__init__`. -/
structure State where
  param : String

/-- Constructing a `SimpleZTS` always succeeds; no mode check happens at
setup. -/
def init (param : String := "equal") : State := ⟨param⟩

noncomputable section

/-- Maximum `np.max` of a flat array (undefined on `[]`, which NumPy rejects;
the junk value 0 is never hit under the theorems' hypotheses). -/
def npMax : List ℝ → ℝ
  | [] => 0
  | x :: xs => xs.foldl max x

/-- The inner `weight_function` of `SimpleZTS.reparametrize`:
`np.sqrt(np.abs(m) / np.abs(m).max())`. -/
def weight_function (meanEnergies : List ℝ) : List ℝ :=
  let absm := meanEnergies.map (fun x => |x|)
  (absm.map (fun x => x / npMax absm)).map Real.sqrt

/-- Segment means `mean_energies = [(energies[i] + energies[i-1]) / 2 for i in
range(1, len(images))]`. -/
def meanEnergies (energies : List ℝ) : List ℝ :=
  List.zipWith (fun eprev ecur => (ecur + eprev) / 2) energies energies.tail

/-- The per-segment image distances
`np.linalg.norm(images[i].coords - images[i-1].coords)`. -/
def segDists (imgs : List (List ℝ)) : List ℝ :=
  List.zipWith (fun prev cur => npNorm (List.zipWith (· - ·) cur prev))
    imgs imgs.tail

/-- The raw `arc_segments` list: starts at `0`, then
`next_segment = arc_segments[-1] + weights[i-1] * coord_diff`. -/
def arcSegments (imgs : List (List ℝ)) (energies : List ℝ) : List ℝ :=
  List.scanl (· + ·) 0
    (List.zipWith (· * ·) (weight_function (meanEnergies energies))
      (segDists imgs))

/-- Normalization `arc_segments /= arc_segments.max()`. -/
def arcSegmentsNormed (imgs : List (List ℝ)) (energies : List ℝ) :
    List ℝ :=
  let a := arcSegments imgs energies
  a.map (fun x => x / npMax a)

/-- Uniform mesh `np.linspace(0, 1, num=n)`. -/
def uniformMesh (n : ℕ) : List ℝ :=
  (List.range n).map (fun i : ℕ => (i : ℝ) / ((n : ℝ) - 1))

/-- The spline parameter values `u` passed to `splprep`: the normalized
energy-weighted arc segments for `param == "energy"`; for
`param == "equal"` no `u` is passed and, modelled from the spec, the fit
uses a uniform parameter assignment.  Any other mode leaves `tck`
unassigned (`none`). -/
def splParams (param : String) (imgs : List (List ℝ))
    (energies : List ℝ) : Option (List ℝ) :=
  if param = "energy" then some (arcSegmentsNormed imgs energies)
  else if param = "equal" then some (uniformMesh imgs.length)
  else none

/-- The parameter values actually used for a valid mode. -/
def paramsOf (param : String) (imgs : List (List ℝ))
    (energies : List ℝ) : List ℝ :=
  (splParams param imgs energies).getD []

/-- Method `SimpleZTS.reparametrize`.  The spline fit itself is performed by
`scipy.interpolate.splprep`/`splev`, which are external to the
repository; the fit is abstracted as a function `fit` from parameter
values and image coordinates to a curve `ℝ → List ℝ`, and the new path is
that curve sampled on `uniform_mesh = np.linspace(0, 1,
num=len(self.images))`.  An unrecognized `param` reaches `splev` with
`tck` unassigned and raises `UnboundLocalError`. -/
def reparametrize (param : String) (imgs : List (List ℝ))
    (energies : List ℝ)
    (fit : List ℝ → List (List ℝ) → ℝ → List ℝ) :
    Except PyErr (List (List ℝ)) :=
  match splParams param imgs energies with
  | some u => .ok ((uniformMesh imgs.length).map (fit u imgs))
  | none => .error .unboundLocal

end

end SimpleZTS

namespace Calculator

/-- Possible outcomes of `Calculator.run` as seen from outside the
process: a normal return of the parsed results, an exception propagated
to the caller, or termination of the whole interpreter.  (`prepare`,
`keep` and `clean` are file-system I/O abstracted away here; the decisive
control flow is the `try/except/finally` around the parser call.) -/
inductive RunOutcome (α : Type)
  | results (r : α)
  | raised (err : String)
  | exitProcess
  deriving DecidableEq

/-- Method `Calculator.run`, as a function of the outcome of the `try` block
(`run_after` + `self.parser_funcs[calc](path)`): on success the parsed
results are returned; on any exception the handler prints the error and
the crashed input, copies the working directory to `crashed_<name>`, and
calls `sys.exit()` — terminating the process. -/
def run {α : Type} (parseResult : Except String α) : RunOutcome α :=
  match parseResult with
  | .ok r => .results r
  | .error _ => .exitProcess

end Calculator

/-! ### Basic lemmas -/

lemma sumsq_nonneg (v : List ℝ) : 0 ≤ sumsq v := by
  apply List.sum_nonneg
  intro x hx
  obtain ⟨y, _, rfl⟩ := List.mem_map.mp hx
  positivity

lemma npNorm_sq (v : List ℝ) : npNorm v ^ 2 = sumsq v :=
  Real.sq_sqrt (sumsq_nonneg v)

lemma npNorm_nonneg (v : List ℝ) : 0 ≤ npNorm v := Real.sqrt_nonneg _

namespace StringOptimizer

lemma restrict_eq_map_clamp (m : ℝ) (s : List ℝ) :
    restrict_step_components m s = s.map (clampComp m) := rfl

lemma abs_npSign_mul (m x : ℝ) (hm : 0 ≤ m) (hx : x ≠ 0) :
    |npSign x * m| = m := by
  rcases lt_trichotomy x 0 with h | h | h
  · rw [show npSign x = -1 by simp [npSign, h, not_lt.mpr h.le]]
    rw [neg_one_mul, abs_neg, abs_of_nonneg hm]
  · exact absurd h hx
  · rw [show npSign x = 1 by simp [npSign, h]]
    rw [one_mul, abs_of_nonneg hm]

lemma clampComp_idem (m x : ℝ) (hm : 0 ≤ m) :
    clampComp m (clampComp m x) = clampComp m x := by
  by_cases h : m < |x|
  · have hx : x ≠ 0 := by
      intro h0
      subst h0
      simp only [abs_zero] at h
      linarith
    simp only [clampComp, if_pos h]
    rw [if_neg (by rw [abs_npSign_mul m x hm hx]; exact lt_irrefl m)]
  · simp only [clampComp, if_neg h]

lemma cgQuot_eq (f pf : List ℝ) :
    cgQuot f pf = min ((npNorm f / npNorm pf) ^ 2) 1 := by
  rw [cgQuot, div_pow]

/-! ### C1 — step formula of `StringOptimizer.optimize` -/

/-- C1: on the first cycle, or whenever the coordinate-vector length
differs from the previous cycle, the pre-clipping step equals the pure
steepest-descent step `forces / gamma` regardless of history; otherwise it
equals `forces / gamma + ratio * previous_step` with
`ratio = min((‖forces‖ / ‖forces_prev‖)², 1)`, whose value never
exceeds 1. -/
theorem C1_step_formula (g : ℝ) (cc cs : ℕ) (ps : Option ℕ)
    (f pf pstep : List ℝ) :
    ((cc = 0 ∨ stringSizeChanged cs ps = true) →
      optimizeStep g cc cs ps f pf pstep = sdStep g f) ∧
    (cc ≠ 0 → stringSizeChanged cs ps = false → 0 < sumsq pf →
      optimizeStep g cc cs ps f pf pstep =
        List.zipWith (fun s p => s + min ((npNorm f / npNorm pf) ^ 2) 1 * p)
          (sdStep g f) pstep) ∧
    min ((npNorm f / npNorm pf) ^ 2) 1 ≤ 1 := by
  refine ⟨fun h => ?_, fun h1 h2 _ => ?_, min_le_right _ _⟩
  · rw [optimizeStep, if_pos]
    rcases h with h | h
    · exact Or.inl h
    · exact Or.inr h
  · rw [optimizeStep, if_neg (by simp [h1, h2])]
    simp only [cgQuot_eq]

/-- Witness for C1: a concrete steady-state cycle (cycle 1, unchanged
size) where the conjugate-gradient branch applies. -/
theorem C1_step_formula_witness :
    ((1 : ℕ) ≠ 0 ∧ stringSizeChanged 2 (some 2) = false ∧
      (0 : ℝ) < sumsq [2]) ∧
    optimizeStep (5/4) 1 2 (some 2) [1] [2] [3] =
      List.zipWith
        (fun s p => s + min ((npNorm [1] / npNorm [2]) ^ 2) 1 * p)
        (sdStep (5/4) [1]) [3] :=
  ⟨⟨one_ne_zero, by decide, by norm_num [sumsq]⟩,
    (C1_step_formula (5/4) 1 2 (some 2) [1] [2] [3]).2.1 one_ne_zero
      (by decide) (by norm_num [sumsq])⟩

/-! ### C2 — component clipping -/

/-- C2: `restrict_step_components` is applied after the step formula
(`optimize = restrict ∘ optimizeStep`); it replaces every component whose
absolute value exceeds `max_step` by `sign * max_step` and leaves the
others unchanged; a step with all components within `max_step` is returned
unchanged, and the operation is idempotent. -/
theorem C2_restrict_step_components (m : ℝ) (hm : 0 ≤ m) :
    (∀ g cc cs ps f pf pstep,
      optimize g m cc cs ps f pf pstep =
        restrict_step_components m (optimizeStep g cc cs ps f pf pstep)) ∧
    (∀ (s : List ℝ) (i : ℕ),
      (restrict_step_components m s)[i]? =
        (s[i]?).map
          (fun x => if m < |x| then npSign x * m else x)) ∧
    (∀ s : List ℝ, (∀ x ∈ s, |x| ≤ m) → restrict_step_components m s = s) ∧
    (∀ s : List ℝ,
      restrict_step_components m (restrict_step_components m s) =
        restrict_step_components m s) := by
  refine ⟨fun _ _ _ _ _ _ _ => rfl, fun s i => ?_, fun s hs => ?_, fun s => ?_⟩
  · rw [restrict_eq_map_clamp, List.getElem?_map]
    rfl
  · rw [restrict_eq_map_clamp]
    conv_rhs => rw [← List.map_id s]
    apply List.map_congr_left
    intro x hx
    have := hs x hx
    simp [clampComp, not_lt.mpr this]
  · rw [restrict_eq_map_clamp, restrict_eq_map_clamp, List.map_map]
    apply List.map_congr_left
    intro x _
    exact clampComp_idem m x hm

/-- Witness for C2: with the default `max_step = 0.1`, a small step is
returned unchanged. -/
theorem C2_restrict_step_components_witness :
    ((0 : ℝ) ≤ 1/10 ∧ ∀ x ∈ [(1 : ℝ)/20], |x| ≤ 1/10) ∧
    restrict_step_components (1/10) [(1 : ℝ)/20] = [(1 : ℝ)/20] :=
  ⟨⟨by norm_num,
    (by intro x hx; rw [List.mem_singleton] at hx; subst hx;
        rw [abs_of_nonneg (by norm_num : (0:ℝ) ≤ 1/20)]; norm_num)⟩,
    (C2_restrict_step_components (1/10) (by norm_num)).2.2.1 [(1 : ℝ)/20]
      (by intro x hx; rw [List.mem_singleton] at hx; subst hx;
          rw [abs_of_nonneg (by norm_num : (0:ℝ) ≤ 1/20)]; norm_num)⟩

/-! ### C3 / C10 — fully-grown countdown in `check_convergence` -/

lemma stopInAfter_all_grown (N : ℤ) (k : ℕ) :
    stopInAfter N (fun _ => true) k = N + 1 - (k + 1) := by
  induction k with
  | zero => simp [stopInAfter, checkConvergence, initStopIn]
  | succ k ih =>
      simp only [stopInAfter, checkConvergence, ih, if_pos]
      push_cast
      ring

lemma verdictAt_eq (swf : ℤ) (fg conv : ℕ → Bool) (k : ℕ) :
    verdictAt swf fg conv k = (fullStopAt swf fg k || conv k) := by
  cases k <;> simp [verdictAt, fullStopAt, checkConvergence]

/-- C3: with countdown `stop_in_when_full = N ≥ 0` and a geometry that
is fully grown on every cycle, `full_stop` is `true` exactly in cycle `N`
(counting from cycle 0) and in no other cycle; whenever `full_stop` is
`true` the combined verdict is `true` regardless of the generic
convergence result. -/
theorem C3_fully_grown_countdown (N : ℕ) :
    (∀ k : ℕ, fullStopAt (N : ℤ) (fun _ => true) k = true ↔ k = N) ∧
    (∀ (swf : ℤ) (fg conv : ℕ → Bool) (k : ℕ),
      fullStopAt swf fg k = true → verdictAt swf fg conv k = true) := by
  constructor
  · intro k
    cases k with
    | zero =>
        simp [fullStopAt, checkConvergence, initStopIn]
        omega
    | succ k =>
        simp [fullStopAt, checkConvergence, stopInAfter_all_grown]
        omega
  · intro swf fg conv k h
    rw [verdictAt_eq, h, Bool.true_or]

/-- Witness for C3: with `stop_in_when_full = 1` and a permanently
fully-grown string, `full_stop` fires in cycle 1 and forces a `true`
verdict although the generic check reports `false`. -/
theorem C3_fully_grown_countdown_witness :
    fullStopAt (1 : ℤ) (fun _ => true) 1 = true ∧
    verdictAt (1 : ℤ) (fun _ => true) (fun _ => false) 1 = true :=
  ⟨by decide,
    (C3_fully_grown_countdown 1).2 1 (fun _ => true) (fun _ => false) 1
      (by decide)⟩

lemma stopInAfter_default_nonpos (fg : ℕ → Bool) (k : ℕ) :
    stopInAfter (-1) fg k ≤ 0 := by
  induction k with
  | zero => cases h : fg 0 <;> simp [stopInAfter, checkConvergence, initStopIn, h]
  | succ k ih =>
      cases h : fg (k + 1) <;>
        simp [stopInAfter, checkConvergence, h] <;> omega

/-- C10: with the default `stop_in_when_full = -1` the internal
counter starts at 0, on every fully-grown cycle its decremented value is
nonzero at the test, `full_stop` is never `true`, and the verdict of
`check_convergence` always equals the generic convergence result. -/
theorem C10_default_countdown_never_stops :
    initStopIn (-1) = 0 ∧
    ∀ (fg conv : ℕ → Bool) (k : ℕ),
      (fg k = true → stopInAfter (-1) fg k ≠ 0) ∧
      fullStopAt (-1) fg k = false ∧
      verdictAt (-1) fg conv k = conv k := by
  refine ⟨rfl, fun fg conv k => ?_⟩
  have hne : fg k = true → stopInAfter (-1) fg k ≠ 0 := by
    intro hfg
    cases k with
    | zero => simp [stopInAfter, checkConvergence, initStopIn, hfg]
    | succ k =>
        have := stopInAfter_default_nonpos fg k
        simp [stopInAfter, checkConvergence, hfg]
        omega
  have hfs : fullStopAt (-1) fg k = false := by
    cases k with
    | zero =>
        cases h : fg 0 <;>
          simp [fullStopAt, checkConvergence, initStopIn, h]
    | succ k =>
        cases h : fg (k + 1) with
        | false => simp [fullStopAt, checkConvergence, h]
        | true =>
            have := stopInAfter_default_nonpos fg k
            simp [fullStopAt, checkConvergence, h]
            omega
  exact ⟨hne, hfs, by rw [verdictAt_eq, hfs, Bool.false_or]⟩

/-- Witness for C10: in cycle 0 of a fully-grown string with the default
countdown, the counter is nonzero at the test and no full stop occurs. -/
theorem C10_default_countdown_never_stops_witness :
    (fun _ : ℕ => true) 0 = true ∧
    stopInAfter (-1) (fun _ => true) 0 ≠ 0 ∧
    fullStopAt (-1) (fun _ => true) 0 = false :=
  ⟨rfl,
    ((C10_default_countdown_never_stops.2 (fun _ => true) (fun _ => false)
      0).1 rfl),
    ((C10_default_countdown_never_stops.2 (fun _ => true) (fun _ => false)
      0).2.1)⟩

end StringOptimizer

namespace Primitive

lemma sumsq_cons (x : ℝ) (xs : List ℝ) :
    sumsq (x :: xs) = x ^ 2 + sumsq xs := by
  simp [sumsq]

lemma npDot_cons (x y : ℝ) (xs ys : List ℝ) :
    npDot (x :: xs) (y :: ys) = x * y + npDot xs ys := by
  simp [npDot]

lemma npDot_smul_self (c : ℝ) (u : List ℝ) :
    npDot u (u.map (fun x => c * x)) = c * sumsq u := by
  induction u with
  | nil => simp [npDot, sumsq]
  | cons x xs ih =>
      rw [List.map_cons, npDot_cons, sumsq_cons, ih]
      ring

lemma sumsq_smul (c : ℝ) (u : List ℝ) :
    sumsq (u.map (fun x => c * x)) = c ^ 2 * sumsq u := by
  induction u with
  | nil => simp [sumsq]
  | cons x xs ih =>
      rw [List.map_cons, sumsq_cons, sumsq_cons, ih]
      ring

lemma npNorm_smul (c : ℝ) (u : List ℝ) :
    npNorm (u.map (fun x => c * x)) = |c| * npNorm u := by
  rw [npNorm, npNorm, sumsq_smul, Real.sqrt_mul (sq_nonneg c),
    Real.sqrt_sq_eq_abs]

/-! ### C4 — `Primitive.parallel` -/

/-- C4: `parallel` at the default threshold holds exactly when
`1 - |cos θ| < 1e-6`; a vector and a positive multiple of itself are
parallel, and two orthogonal unit vectors are not. -/
theorem C4_parallel (u v : List ℝ) :
    (parallel u v ↔ 1 - |npDot u v / (npNorm u * npNorm v)| < 1/1000000) ∧
    (0 < sumsq u → ∀ c : ℝ, 0 < c → parallel u (u.map (fun x => c * x))) ∧
    (sumsq u = 1 → sumsq v = 1 → npDot u v = 0 → ¬ parallel u v) := by
  refine ⟨Iff.rfl, fun hu c hc => ?_, fun hu hv huv => ?_⟩
  · have hmul : npNorm u * npNorm u = sumsq u := by
      have := npNorm_sq u
      nlinarith [npNorm_nonneg u]
    rw [parallel, npDot_smul_self, npNorm_smul, abs_of_pos hc]
    rw [show npNorm u * (c * npNorm u) = c * (npNorm u * npNorm u) by ring,
      hmul]
    rw [div_self (mul_pos hc hu).ne']
    norm_num
  · rw [parallel, huv, npNorm, npNorm, hu, hv, Real.sqrt_one]
    norm_num

/-- Witness for C4: `[1, 0]` is parallel to `2 * [1, 0]`, and the
orthogonal unit vectors `[1, 0]`, `[0, 1]` are not parallel. -/
theorem C4_parallel_witness :
    ((0 : ℝ) < sumsq [1, 0] ∧ (0 : ℝ) < 2 ∧
      sumsq [(1 : ℝ), 0] = 1 ∧ sumsq [(0 : ℝ), 1] = 1 ∧
      npDot [(1 : ℝ), 0] [(0 : ℝ), 1] = 0) ∧
    parallel [(1 : ℝ), 0] ([(1 : ℝ), 0].map (fun x => 2 * x)) ∧
    ¬ parallel [(1 : ℝ), 0] [(0 : ℝ), 1] :=
  ⟨⟨by norm_num [sumsq], by norm_num, by norm_num [sumsq],
      by norm_num [sumsq], by norm_num [npDot]⟩,
    (C4_parallel [(1 : ℝ), 0] ([(0 : ℝ), 1])).2.1 (by norm_num [sumsq]) 2
      (by norm_num),
    (C4_parallel [(1 : ℝ), 0] ([(0 : ℝ), 1])).2.2 (by norm_num [sumsq])
      (by norm_num [sumsq]) (by norm_num [npDot])⟩

/-! ### C5 — `Primitive.rho` -/

/-- C5: `rho` equals `exp(-(d / (r_i + r_j) - 1))` for the Euclidean
distance `d` of atoms `i` and `j`; it is exactly `1` when the distance
equals the covalent-radius sum, strictly decreasing in the distance, and
the radius lookup is insensitive to the case of the element symbols. -/
theorem C5_rho (CR : String → ℝ) (atoms : ℕ → String)
    (coords3d : ℕ → ℝ × ℝ × ℝ) (i j : ℕ) :
    (rho CR atoms coords3d (i, j) =
      rhoOfDist (CR (atoms i).toLower + CR (atoms j).toLower)
        (dist3 (coords3d i) (coords3d j))) ∧
    (CR (atoms i).toLower + CR (atoms j).toLower ≠ 0 →
      dist3 (coords3d i) (coords3d j) =
        CR (atoms i).toLower + CR (atoms j).toLower →
      rho CR atoms coords3d (i, j) = 1) ∧
    (∀ S d₁ d₂ : ℝ, 0 < S → d₁ < d₂ → rhoOfDist S d₂ < rhoOfDist S d₁) ∧
    (∀ atoms' : ℕ → String,
      (∀ k, (atoms' k).toLower = (atoms k).toLower) →
      rho CR atoms' coords3d (i, j) = rho CR atoms coords3d (i, j)) := by
  refine ⟨rfl, fun hsum hd => ?_, fun S d₁ d₂ hS hlt => ?_, fun a' ha => ?_⟩
  · rw [rho]
    simp only
    rw [hd, div_self hsum]
    simp [Real.exp_zero]
  · rw [rhoOfDist, rhoOfDist]
    apply Real.exp_lt_exp.mpr
    have h : d₁ / S < d₂ / S := by gcongr
    linarith
  · rw [rho, rho]
    simp only [ha]

/-- Witness for C5: two hydrogen-like atoms with unit covalent radius at
distance 2 (= the covalent-radius sum) give `rho = 1`. -/
theorem C5_rho_witness :
    (((1 : ℝ) + 1 ≠ 0) ∧
      dist3 ((1 : ℝ), (1 : ℝ), (1 : ℝ)) ((3 : ℝ), (1 : ℝ), (1 : ℝ)) =
        (1 : ℝ) + 1) ∧
    rho (fun _ => 1) (fun _ => "H")
      (fun k => if k = 0 then ((1 : ℝ), (1 : ℝ), (1 : ℝ))
        else ((3 : ℝ), (1 : ℝ), (1 : ℝ))) (0, 1) = 1 := by
  have hd : dist3 ((1 : ℝ), (1 : ℝ), (1 : ℝ)) ((3 : ℝ), (1 : ℝ), (1 : ℝ))
      = (1 : ℝ) + 1 := by
    rw [dist3]
    norm_num
    rw [show (4 : ℝ) = 2 ^ 2 by norm_num, Real.sqrt_sq (by norm_num)]
  refine ⟨⟨by norm_num, hd⟩, ?_⟩
  exact (C5_rho (fun _ => 1) (fun _ => "H")
      (fun k => if k = 0 then ((1 : ℝ), (1 : ℝ), (1 : ℝ))
        else ((3 : ℝ), (1 : ℝ), (1 : ℝ))) 0 1).2.1 (by norm_num) hd

end Primitive

namespace SimpleZTS

/-! ### Lemmas on `npMax` and cumulative sums -/

lemma self_le_foldl_max (a : ℝ) (l : List ℝ) : a ≤ l.foldl max a := by
  induction l generalizing a with
  | nil => exact le_refl a
  | cons y ys ih => exact le_trans (le_max_left a y) (ih (max a y))

lemma mem_le_foldl_max (l : List ℝ) :
    ∀ (a x : ℝ), x ∈ l → x ≤ l.foldl max a := by
  induction l with
  | nil => intro a x hx; cases hx
  | cons y ys ih =>
      intro a x hx
      rw [List.foldl_cons]
      rcases List.mem_cons.mp hx with rfl | h
      · exact le_trans (le_max_right a x) (self_le_foldl_max _ ys)
      · exact ih (max a y) x h

lemma le_npMax (l : List ℝ) (x : ℝ) (hx : x ∈ l) : x ≤ npMax l := by
  cases l with
  | nil => cases hx
  | cons y ys =>
      rcases List.mem_cons.mp hx with rfl | h
      · exact self_le_foldl_max x ys
      · exact mem_le_foldl_max ys y x h

lemma scanl_add_ne_nil (a : ℝ) (l : List ℝ) :
    List.scanl (· + ·) a l ≠ [] := by
  intro h
  have := congrArg List.length h
  simp [List.length_scanl] at this

lemma head?_scanl_add (a : ℝ) (l : List ℝ) :
    (List.scanl (· + ·) a l).head? = some a := by
  cases l with
  | nil => rfl
  | cons x xs => rw [List.scanl_cons]; rfl

lemma chain'_lt_scanl_add (l : List ℝ) :
    ∀ a : ℝ, (∀ x ∈ l, 0 < x) →
      List.Chain' (· < ·) (List.scanl (· + ·) a l) := by
  induction l with
  | nil => intro a _; rw [List.scanl_nil]; exact List.chain'_singleton a
  | cons x xs ih =>
      intro a h
      rw [List.scanl_cons, List.singleton_append]
      apply List.chain'_cons'.mpr
      refine ⟨fun y hy => ?_, ih (a + x)
        (fun z hz => h z (List.mem_cons_of_mem x hz))⟩
      rw [head?_scanl_add] at hy
      rw [Option.mem_def] at hy
      injection hy with hy
      subst hy
      exact lt_add_of_pos_right a (h x (List.mem_cons_self x xs))

lemma getLast?_scanl_add (l : List ℝ) :
    ∀ a : ℝ, (List.scanl (· + ·) a l).getLast? = some (a + l.sum) := by
  induction l with
  | nil => intro a; simp
  | cons x xs ih =>
      intro a
      rw [List.scanl_cons, List.singleton_append, List.getLast?_cons,
        ih (a + x)]
      simp only [Option.getD_some, List.sum_cons, add_assoc]

lemma scanl_add_mem_lower (l : List ℝ) :
    ∀ a : ℝ, (∀ x ∈ l, 0 ≤ x) →
      ∀ y ∈ List.scanl (· + ·) a l, a ≤ y := by
  induction l with
  | nil =>
      intro a _ y hy
      rw [List.scanl_nil, List.mem_singleton] at hy
      exact hy ▸ le_refl a
  | cons x xs ih =>
      intro a h y hy
      rw [List.scanl_cons, List.singleton_append, List.mem_cons] at hy
      have hx : 0 ≤ x := h x (List.mem_cons_self x xs)
      rcases hy with rfl | hy
      · exact le_refl y
      · have := ih (a + x) (fun z hz => h z (List.mem_cons_of_mem x hz)) y hy
        linarith

lemma scanl_add_mem_upper (l : List ℝ) :
    ∀ a : ℝ, (∀ x ∈ l, 0 ≤ x) →
      ∀ y ∈ List.scanl (· + ·) a l, y ≤ a + l.sum := by
  induction l with
  | nil =>
      intro a _ y hy
      rw [List.scanl_nil, List.mem_singleton] at hy
      simp [hy]
  | cons x xs ih =>
      intro a h y hy
      rw [List.scanl_cons, List.singleton_append, List.mem_cons] at hy
      have hx : 0 ≤ x := h x (List.mem_cons_self x xs)
      have hsum : 0 ≤ xs.sum :=
        List.sum_nonneg (fun z hz => h z (List.mem_cons_of_mem x hz))
      rw [List.sum_cons]
      rcases hy with rfl | hy
      · linarith
      · have := ih (a + x) (fun z hz => h z (List.mem_cons_of_mem x hz)) y hy
        linarith

lemma foldl_max_of_chain (xs : List ℝ) :
    ∀ x : ℝ, List.Chain' (· ≤ ·) (x :: xs) →
      xs.foldl max x = (x :: xs).getLast (List.cons_ne_nil x xs) := by
  induction xs with
  | nil => intro x _; rfl
  | cons y ys ih =>
      intro x h
      have hxy : x ≤ y := (List.chain'_cons.mp h).1
      have h' := (List.chain'_cons.mp h).2
      rw [List.foldl_cons, max_eq_right hxy, ih y h',
        List.getLast_cons (List.cons_ne_nil y ys)]

lemma npMax_eq_getLast (l : List ℝ) (hne : l ≠ [])
    (h : List.Chain' (· ≤ ·) l) : npMax l = l.getLast hne := by
  cases l with
  | nil => exact absurd rfl hne
  | cons x xs => exact foldl_max_of_chain xs x h

lemma length_uniformMesh (n : ℕ) : (uniformMesh n).length = n := by
  simp [uniformMesh]

lemma zipWith_mul_pos :
    ∀ (ws ds : List ℝ), (∀ w ∈ ws, 0 < w) → (∀ d ∈ ds, 0 < d) →
      ∀ x ∈ List.zipWith (· * ·) ws ds, 0 < x := by
  intro ws
  induction ws with
  | nil => intro ds _ _ x hx; cases hx
  | cons w ws ih =>
      intro ds hw hd x hx
      cases ds with
      | nil => cases hx
      | cons d ds' =>
          rw [List.zipWith_cons_cons, List.mem_cons] at hx
          rcases hx with rfl | hx
          · exact mul_pos (hw w (List.mem_cons_self w ws))
              (hd d (List.mem_cons_self d ds'))
          · exact ih ds' (fun z hz => hw z (List.mem_cons_of_mem w hz))
              (fun z hz => hd z (List.mem_cons_of_mem d hz)) x hx

lemma weight_function_eq (m : List ℝ) :
    weight_function m =
      m.map (fun e =>
        Real.sqrt (|e| / npMax (m.map (fun x => |x|)))) := by
  simp only [weight_function, List.map_map]
  rfl

lemma mem_weight_function_pos (m : List ℝ)
    (he : ∀ e ∈ m, e ≠ 0) : ∀ w ∈ weight_function m, 0 < w := by
  intro w hw
  rw [weight_function_eq] at hw
  obtain ⟨e, hem, rfl⟩ := List.mem_map.mp hw
  have habs : (0 : ℝ) < |e| := abs_pos.mpr (he e hem)
  have hmx : 0 < npMax (m.map (fun x => |x|)) :=
    lt_of_lt_of_le habs (le_npMax _ _ (List.mem_map.mpr ⟨e, hem, rfl⟩))
  exact Real.sqrt_pos.mpr (div_pos habs hmx)

lemma length_meanEnergies (es : List ℝ) :
    (meanEnergies es).length = es.length - 1 := by
  simp only [meanEnergies, List.length_zipWith, List.length_tail]
  omega

lemma length_segDists (imgs : List (List ℝ)) :
    (segDists imgs).length = imgs.length - 1 := by
  simp only [segDists, List.length_zipWith, List.length_tail]
  omega

lemma length_weight_function (m : List ℝ) :
    (weight_function m).length = m.length := by
  rw [weight_function_eq, List.length_map]

/-! ### C6 — energy-weighted parameter sequence -/

/-- C6: in energy-weighted mode the segment weights are
`sqrt(|mean energy| / max |mean energy|)`; the raw parameter sequence
starts at 0 and each increment is `weight[i] * distance(image[i+1],
image[i])`; the normalized sequence is strictly increasing, ends exactly
at 1, and all its entries lie in `[0, 1]`. -/
theorem C6_energy_weighted_params (imgs : List (List ℝ))
    (energies : List ℝ) (hlen : energies.length = imgs.length)
    (hn : 2 ≤ imgs.length)
    (he : ∀ e ∈ meanEnergies energies, e ≠ 0)
    (hd : ∀ d ∈ segDists imgs, 0 < d) :
    (weight_function (meanEnergies energies) =
      (meanEnergies energies).map (fun e =>
        Real.sqrt (|e| /
          npMax ((meanEnergies energies).map (fun x => |x|))))) ∧
    ((arcSegments imgs energies)[0]? = some 0) ∧
    (∀ i : ℕ, i < (weight_function (meanEnergies energies)).length →
      i < (segDists imgs).length →
      (arcSegments imgs energies).getD (i + 1) 0 =
        (arcSegments imgs energies).getD i 0 +
          (weight_function (meanEnergies energies)).getD i 0 *
            (segDists imgs).getD i 0) ∧
    List.Chain' (· < ·) (arcSegmentsNormed imgs energies) ∧
    (arcSegmentsNormed imgs energies).getLast? = some 1 ∧
    (∀ y ∈ arcSegmentsNormed imgs energies, 0 ≤ y ∧ y ≤ 1) := by
  have hmlen : (meanEnergies energies).length = imgs.length - 1 := by
    rw [length_meanEnergies, hlen]
  have hmne : meanEnergies energies ≠ [] := by
    intro h
    rw [h] at hmlen
    simp at hmlen
    omega
  have hwpos := mem_weight_function_pos (meanEnergies energies) he
  have hincpos :
      ∀ x ∈ List.zipWith (· * ·) (weight_function (meanEnergies energies))
        (segDists imgs), 0 < x :=
    zipWith_mul_pos _ _ hwpos hd
  have hincnn :
      ∀ x ∈ List.zipWith (· * ·) (weight_function (meanEnergies energies))
        (segDists imgs), 0 ≤ x :=
    fun x hx => le_of_lt (hincpos x hx)
  have hinclen :
      (List.zipWith (· * ·) (weight_function (meanEnergies energies))
        (segDists imgs)).length = imgs.length - 1 := by
    rw [List.length_zipWith, length_weight_function, hmlen,
      length_segDists]
    omega
  have hincne :
      List.zipWith (· * ·) (weight_function (meanEnergies energies))
        (segDists imgs) ≠ [] := by
    intro h
    rw [h] at hinclen
    simp at hinclen
    omega
  have harc : arcSegments imgs energies =
      List.scanl (· + ·) 0
        (List.zipWith (· * ·) (weight_function (meanEnergies energies))
          (segDists imgs)) := rfl
  have hchain : List.Chain' (· < ·) (arcSegments imgs energies) := by
    rw [harc]
    exact chain'_lt_scanl_add _ 0 hincpos
  have hchainle : List.Chain' (· ≤ ·) (arcSegments imgs energies) :=
    hchain.imp (fun a b => le_of_lt)
  have harcne : arcSegments imgs energies ≠ [] := by
    rw [harc]
    exact scanl_add_ne_nil _ _
  have hsum : 0 <
      (List.zipWith (· * ·) (weight_function (meanEnergies energies))
        (segDists imgs)).sum :=
    List.sum_pos _ hincpos hincne
  have hlastval : (arcSegments imgs energies).getLast harcne =
      (List.zipWith (· * ·) (weight_function (meanEnergies energies))
        (segDists imgs)).sum := by
    have h := getLast?_scanl_add
      (List.zipWith (· * ·) (weight_function (meanEnergies energies))
        (segDists imgs)) 0
    rw [← harc, List.getLast?_eq_getLast _ harcne] at h
    have := Option.some.inj h
    rw [this, zero_add]
  have hmaxval : npMax (arcSegments imgs energies) =
      (List.zipWith (· * ·) (weight_function (meanEnergies energies))
        (segDists imgs)).sum := by
    rw [npMax_eq_getLast _ harcne hchainle, hlastval]
  have hmaxpos : 0 < npMax (arcSegments imgs energies) := by
    rw [hmaxval]
    exact hsum
  have hnormed : arcSegmentsNormed imgs energies =
      (arcSegments imgs energies).map
        (fun x => x / npMax (arcSegments imgs energies)) := rfl
  refine ⟨weight_function_eq _, ?_, ?_, ?_, ?_, ?_⟩
  · rw [harc]
    exact List.getElem?_scanl_zero
  · intro i hwi hdi
    have hi : i <
        (List.zipWith (· * ·) (weight_function (meanEnergies energies))
          (segDists imgs)).length := by
      rw [List.length_zipWith]
      exact lt_min hwi hdi
    have h1 : i + 1 < (arcSegments imgs energies).length := by
      rw [harc, List.length_scanl]
      omega
    have h0 : i < (arcSegments imgs energies).length := by omega
    rw [List.getD_eq_getElem _ _ h1, List.getD_eq_getElem _ _ h0,
      List.getD_eq_getElem _ _ hwi, List.getD_eq_getElem _ _ hdi]
    have hstep := List.getElem_succ_scanl (h1.trans_eq (by rw [harc]))
    simp only [arcSegments]
    rw [hstep]
    congr 1
    exact List.getElem_zipWith
  · rw [hnormed]
    exact List.chain'_map_of_chain' _
      (fun a b hab => div_lt_div_of_pos_right hab hmaxpos) hchain
  · rw [hnormed, List.getLast?_map, List.getLast?_eq_getLast _ harcne,
      hlastval, Option.map_some']
    rw [← hmaxval, div_self (ne_of_gt hmaxpos)]
  · intro y hy
    rw [hnormed] at hy
    obtain ⟨x, hxmem, rfl⟩ := List.mem_map.mp hy
    have hx0 : (0 : ℝ) ≤ x := by
      have := scanl_add_mem_lower _ 0 hincnn x (harc ▸ hxmem)
      exact this
    have hx1 : x ≤ npMax (arcSegments imgs energies) := by
      rw [hmaxval]
      have := scanl_add_mem_upper _ 0 hincnn x (harc ▸ hxmem)
      rw [zero_add] at this
      exact this
    exact ⟨div_nonneg hx0 (le_of_lt hmaxpos),
      (div_le_one hmaxpos).mpr hx1⟩

/-- Witness for C6: a two-image path `[[0], [1]]` with energies `[1, 1]`;
the normalized parameter sequence ends at 1. -/
theorem C6_energy_weighted_params_witness :
    (([(1 : ℝ), 1] : List ℝ).length =
        ([[(0 : ℝ)], [1]] : List (List ℝ)).length ∧
      2 ≤ ([[(0 : ℝ)], [1]] : List (List ℝ)).length ∧
      (∀ e ∈ meanEnergies [(1 : ℝ), 1], e ≠ 0) ∧
      (∀ d ∈ segDists [[(0 : ℝ)], [1]], 0 < d)) ∧
    (arcSegmentsNormed [[(0 : ℝ)], [1]] [(1 : ℝ), 1]).getLast? = some 1 := by
  have he : ∀ e ∈ meanEnergies [(1 : ℝ), 1], e ≠ 0 := by
    intro e heem
    norm_num [meanEnergies] at heem
    rw [heem]
    norm_num
  have hd : ∀ d ∈ segDists [[(0 : ℝ)], [1]], 0 < d := by
    intro d hdm
    simp only [segDists, List.tail_cons, List.zipWith_cons_cons,
      List.zipWith_nil_right, List.mem_singleton] at hdm
    rw [hdm, npNorm]
    apply Real.sqrt_pos.mpr
    norm_num [sumsq]
  exact ⟨⟨rfl, by norm_num, he, hd⟩,
    (C6_energy_weighted_params [[(0 : ℝ)], [1]] [(1 : ℝ), 1] rfl
      (by norm_num) he hd).2.2.2.2.1⟩

/-! ### C7 — reparametrization preserves the endpoints and the size -/

/-- C7: for a valid mode, `reparametrize` evaluates the fitted curve
at `N = len(images)` uniform parameter values; since the zero-smoothing
fit passes exactly through the path endpoints (the scipy `splprep(s=0)`
contract, stated as the hypotheses on `fit` at parameters 0 and 1), the
new path has the same number of images and its first and last images
coincide with the originals. -/
theorem C7_reparametrize_endpoints (param : String) (imgs : List (List ℝ))
    (energies : List ℝ) (fit : List ℝ → List (List ℝ) → ℝ → List ℝ)
    (hn : 2 ≤ imgs.length)
    (hparam : param = "equal" ∨ param = "energy")
    (hfit0 : fit (paramsOf param imgs energies) imgs 0 = imgs.getD 0 [])
    (hfit1 : fit (paramsOf param imgs energies) imgs 1 =
      imgs.getD (imgs.length - 1) []) :
    ∃ r : List (List ℝ),
      reparametrize param imgs energies fit = .ok r ∧
      r = (uniformMesh imgs.length).map
        (fit (paramsOf param imgs energies) imgs) ∧
      r.length = imgs.length ∧
      r.getD 0 [] = imgs.getD 0 [] ∧
      r.getD (imgs.length - 1) [] = imgs.getD (imgs.length - 1) [] := by
  have hsp : splParams param imgs energies =
      some (paramsOf param imgs energies) := by
    rcases hparam with rfl | rfl <;> rfl
  refine ⟨(uniformMesh imgs.length).map
    (fit (paramsOf param imgs energies) imgs), ?_, rfl, ?_, ?_, ?_⟩
  · rw [reparametrize, hsp]
  · rw [List.length_map, length_uniformMesh]
  · have h0 : 0 < ((uniformMesh imgs.length).map
        (fit (paramsOf param imgs energies) imgs)).length := by
      rw [List.length_map, length_uniformMesh]
      omega
    rw [List.getD_eq_getElem _ _ h0, List.getElem_map]
    simp only [uniformMesh, List.getElem_map, List.getElem_range,
      Nat.cast_zero, zero_div]
    exact hfit0
  · have h1 : imgs.length - 1 < ((uniformMesh imgs.length).map
        (fit (paramsOf param imgs energies) imgs)).length := by
      rw [List.length_map, length_uniformMesh]
      omega
    rw [List.getD_eq_getElem _ _ h1, List.getElem_map]
    simp only [uniformMesh, List.getElem_map, List.getElem_range]
    rw [Nat.cast_sub (by omega), Nat.cast_one]
    have h2 : (2 : ℝ) ≤ (imgs.length : ℝ) := by exact_mod_cast hn
    rw [div_self (by linarith : (imgs.length : ℝ) - 1 ≠ 0)]
    exact hfit1

/-- Witness for C7: a two-image path on a line, `"equal"` mode, and the
linear interpolant as fitted curve. -/
theorem C7_reparametrize_endpoints_witness :
    (2 ≤ ([[(0 : ℝ)], [1]] : List (List ℝ)).length ∧
      ("equal" = "equal" ∨ "equal" = "energy") ∧
      (fun (_ : List ℝ) (_ : List (List ℝ)) (t : ℝ) => [t])
        (paramsOf "equal" [[(0 : ℝ)], [1]] [0, 0]) [[(0 : ℝ)], [1]] 0 =
        ([[(0 : ℝ)], [1]] : List (List ℝ)).getD 0 [] ∧
      (fun (_ : List ℝ) (_ : List (List ℝ)) (t : ℝ) => [t])
        (paramsOf "equal" [[(0 : ℝ)], [1]] [0, 0]) [[(0 : ℝ)], [1]] 1 =
        ([[(0 : ℝ)], [1]] : List (List ℝ)).getD
          (([[(0 : ℝ)], [1]] : List (List ℝ)).length - 1) []) ∧
    ∃ r : List (List ℝ),
      reparametrize "equal" [[(0 : ℝ)], [1]] [0, 0]
        (fun _ _ t => [t]) = .ok r ∧
      r = (uniformMesh ([[(0 : ℝ)], [1]] : List (List ℝ)).length).map
        ((fun (_ : List ℝ) (_ : List (List ℝ)) (t : ℝ) => [t])
          (paramsOf "equal" [[(0 : ℝ)], [1]] [0, 0]) [[(0 : ℝ)], [1]]) ∧
      r.length = ([[(0 : ℝ)], [1]] : List (List ℝ)).length ∧
      r.getD 0 [] = ([[(0 : ℝ)], [1]] : List (List ℝ)).getD 0 [] ∧
      r.getD (([[(0 : ℝ)], [1]] : List (List ℝ)).length - 1) [] =
        ([[(0 : ℝ)], [1]] : List (List ℝ)).getD
          (([[(0 : ℝ)], [1]] : List (List ℝ)).length - 1) [] :=
  ⟨⟨by norm_num, Or.inl rfl, rfl, rfl⟩,
    C7_reparametrize_endpoints "equal" [[(0 : ℝ)], [1]] [0, 0]
      (fun _ _ t => [t]) (by norm_num) (Or.inl rfl) rfl rfl⟩


/-! ### C8 — unknown parametrization mode -/

/-- C8 counterexample: constructing a `SimpleZTS` with the unknown
mode `"foo"` succeeds (no configuration error at setup); the failure
occurs only during the first `reparametrize`, as an `UnboundLocalError`. -/
theorem C8_counterexample :
    init "foo" = ⟨"foo"⟩ ∧
    reparametrize "foo" [[0], [1]] [0, 0] (fun _ _ t => [t]) =
      .error .unboundLocal :=
  ⟨rfl, rfl⟩

/-- C8 amended: a parametrization mode other than `"energy"` and
`"equal"` is not rejected at construction: `__init__` stores it
unchanged, and the failure is raised during the first `reparametrize`
call (an unbound-local error when `splev` is reached with `tck`
unassigned), for every path. -/
theorem C8_unknown_mode (param : String) (hne : param ≠ "energy")
    (heq : param ≠ "equal") :
    init param = ⟨param⟩ ∧
    ∀ (imgs : List (List ℝ)) (energies : List ℝ)
      (fit : List ℝ → List (List ℝ) → ℝ → List ℝ),
      reparametrize param imgs energies fit = .error .unboundLocal := by
  refine ⟨rfl, fun imgs energies fit => ?_⟩
  rw [reparametrize, splParams, if_neg hne, if_neg heq]

/-- Witness for C8: the unknown mode `"foo"`. -/
theorem C8_unknown_mode_witness :
    ("foo" ≠ "energy" ∧ "foo" ≠ "equal") ∧
    (init "foo" = ⟨"foo"⟩ ∧
      ∀ (imgs : List (List ℝ)) (energies : List ℝ)
        (fit : List ℝ → List (List ℝ) → ℝ → List ℝ),
        reparametrize "foo" imgs energies fit = .error .unboundLocal) :=
  ⟨⟨by decide, by decide⟩, C8_unknown_mode "foo" (by decide) (by decide)⟩

end SimpleZTS

namespace Calculator

/-- C9 counterexample: when the external evaluation fails (the parser
raises), `Calculator.run` terminates the process via `sys.exit()`; it
neither returns a default nor propagates a dedicated error to the
caller, so no caller-side retry/abort policy is possible. -/
theorem C9_counterexample :
    run (α := Unit) (.error "parse failed") = .exitProcess ∧
    (∀ r : Unit, run (α := Unit) (.error "parse failed") ≠ .results r) ∧
    (∀ e : String, run (α := Unit) (.error "parse failed") ≠ .raised e) :=
  ⟨rfl, fun _ h => RunOutcome.noConfusion h,
    fun _ h => RunOutcome.noConfusion h⟩

/-- C9 amended: on a failing external evaluation `Calculator.run`
does not return a default and does not raise to the caller: it backs up
the crashed workspace and exits the process; on a successful evaluation
it returns the parsed results unchanged. -/
theorem C9_run_crash_exits {α : Type} (e : String) (r : α) :
    run (α := α) (.error e) = .exitProcess ∧
    (∀ x : α, run (α := α) (.error e) ≠ .results x) ∧
    (∀ m : String, run (α := α) (.error e) ≠ .raised m) ∧
    run (.ok r) = .results r :=
  ⟨rfl, fun _ h => RunOutcome.noConfusion h,
    fun _ h => RunOutcome.noConfusion h, rfl⟩


/-- Witness for the amended C9: a concrete failing parse exits the
process and a concrete successful parse returns its results. -/
theorem C9_run_crash_exits_witness :
    run (α := ℕ) (.error "boom") = .exitProcess ∧
    run (.ok 5) = .results 5 :=
  ⟨(C9_run_crash_exits "boom" 5).1, (C9_run_crash_exits "boom" 5).2.2.2⟩

end Calculator

end Pysis
